/-
Verification of the Grover-adaptive-search tutorial notebook
(`Optimization/Session 3.ipynb`) against its natural-language specification.

The notebook's only hand-written arithmetic routine is the two's-complement
decoder `twos_complement`; the companion encoder, the quadratic cost model,
the classical oracle simulator and the adaptive search controller are
described by the specification (the notebook delegates them to library
calls), so those are modelled here from the specification's words and
marked as such.

Bit strings are msb-first lists of booleans, mirroring the Python strings
such as `'1010'` fed to `twos_complement`.
-/
import Mathlib

/-- Unsigned value of an msb-first bit string: the Lean rendering of
Python's `int(val, 2)`. -/
def natVal (bits : List Bool) : ℕ :=
  bits.foldl (fun acc b => 2 * acc + (if b then 1 else 0)) 0

/-- The notebook's decoder (cell-8):

    def twos_complement(val, num_bits):
        val = int(val, 2)
        if (val & (1 << (num_bits - 1))) != 0:
            val = val - (1 << num_bits)
        return val

`val & (1 << (num_bits - 1)) != 0` is the test that bit `num_bits - 1` of
the parsed value is set, rendered here with `Nat.testBit`. -/
def twos_complement (bits : List Bool) (num_bits : ℕ) : ℤ :=
  let val : ℕ := natVal bits
  if Nat.testBit val (num_bits - 1) then (val : ℤ) - 2 ^ num_bits else (val : ℤ)

/-- The msb-first `width`-bit binary rendering of a natural number
(truncating above `2 ^ width`). -/
def natToBits : ℕ → ℕ → List Bool
  | 0, _ => []
  | width + 1, v => natToBits width (v / 2) ++ [v % 2 == 1]

/-- Error raised by the codec on an out-of-range value. -/
inductive CodecError where
  | rangeError
  deriving DecidableEq, Repr

/-- Modelled from the spec: `encode(value, width)` is the inverse mapping of
the two's-complement decoder, failing with `RangeError` if `value` is outside
the representable range `[-2^(width-1), 2^(width-1) - 1]`; the notebook
itself has no classical encoder (its `encode` cell is a phase-rotation
circuit). In range, the bit string produced is the `width`-bit binary
rendering of `value` modulo `2 ^ width`. -/
def encode (value : ℤ) (width : ℕ) : Except CodecError (List Bool) :=
  if -(2 ^ (width - 1) : ℤ) ≤ value ∧ value ≤ 2 ^ (width - 1) - 1 then
    Except.ok (natToBits width ((value % (2 ^ width)).toNat))
  else
    Except.error CodecError.rangeError

theorem natVal_aux (l : List Bool) (acc : ℕ) :
    l.foldl (fun acc b => 2 * acc + (if b then 1 else 0)) acc
      = acc * 2 ^ l.length + natVal l := by
  induction l generalizing acc with
  | nil => simp [natVal]
  | cons a l ih =>
    simp only [List.foldl_cons, List.length_cons]
    rw [ih]
    have h0 : natVal (a :: l)
        = (2 * 0 + (if a then 1 else 0)) * 2 ^ l.length + natVal l := by
      rw [natVal, List.foldl_cons]
      exact ih _
    rw [h0]
    ring

theorem natVal_cons (a : Bool) (l : List Bool) :
    natVal (a :: l) = (if a then 1 else 0) * 2 ^ l.length + natVal l := by
  rw [natVal, List.foldl_cons, natVal_aux]
  ring_nf

theorem natVal_append_singleton (l : List Bool) (a : Bool) :
    natVal (l ++ [a]) = 2 * natVal l + (if a then 1 else 0) := by
  rw [natVal, List.foldl_append, List.foldl_cons, List.foldl_nil]
  rfl

theorem natVal_lt (l : List Bool) : natVal l < 2 ^ l.length := by
  induction l with
  | nil => simp [natVal]
  | cons a l ih =>
    rw [natVal_cons, List.length_cons, pow_succ]
    rcases a with _ | _ <;> simp <;> omega

theorem natVal_replicate_false (w : ℕ) :
    natVal (List.replicate w false) = 0 := by
  induction w with
  | zero => rfl
  | succ w ih => rw [List.replicate_succ, natVal_cons]; simpa using ih

theorem natVal_replicate_true (w : ℕ) :
    natVal (List.replicate w true) = 2 ^ w - 1 := by
  induction w with
  | zero => rfl
  | succ w ih =>
    rw [List.replicate_succ, natVal_cons, List.length_replicate, ih, pow_succ]
    have h1 : 1 ≤ 2 ^ w := Nat.one_le_two_pow
    simp only [if_pos rfl, if_true]
    omega

/-- For values below `2 ^ w`, the bit tested by the decoder is set exactly
when the value is at least `2 ^ (w - 1)`. -/
theorem testBit_top (v w : ℕ) (hw : 1 ≤ w) (hv : v < 2 ^ w) :
    Nat.testBit v (w - 1) = decide (2 ^ (w - 1) ≤ v) := by
  rw [Nat.testBit_to_div_mod]
  rcases Nat.exists_eq_add_of_le hw with ⟨k, rfl⟩
  simp only [Nat.add_sub_cancel_left] at *
  have hpow : (2 : ℕ) ^ (1 + k) = 2 ^ k * 2 := by rw [Nat.add_comm, pow_succ]
  rw [hpow] at hv
  have hdiv : v / 2 ^ k < 2 := Nat.div_lt_of_lt_mul hv
  rcases Nat.lt_or_ge v (2 ^ k) with h | h
  · have : v / 2 ^ k = 0 := Nat.div_eq_of_lt h
    simp [this]
    omega
  · have h1 : 1 ≤ v / 2 ^ k := (Nat.le_div_iff_mul_le (pow_pos (by norm_num) k)).2 (by omega)
    have : v / 2 ^ k = 1 := by omega
    simp [this]
    omega

theorem natToBits_length (w v : ℕ) : (natToBits w v).length = w := by
  induction w generalizing v with
  | zero => rfl
  | succ w ih => simp [natToBits, ih]

theorem natVal_natToBits (w v : ℕ) : natVal (natToBits w v) = v % 2 ^ w := by
  induction w generalizing v with
  | zero => simp [natToBits, natVal, Nat.mod_one]
  | succ w ih =>
    rw [natToBits, natVal_append_singleton, ih]
    have hsplit : v % 2 ^ (w + 1) = 2 * (v / 2 % 2 ^ w) + v % 2 := by
      have h1 : 2 ^ (w + 1) * (v / 2 / 2 ^ w) + (2 * (v / 2 % 2 ^ w) + v % 2) = v := by
        have e2 : 2 ^ w * (v / 2 / 2 ^ w) + v / 2 % 2 ^ w = v / 2 :=
          Nat.div_add_mod (v / 2) (2 ^ w)
        have e1 : 2 * (v / 2) + v % 2 = v := Nat.div_add_mod v 2
        calc 2 ^ (w + 1) * (v / 2 / 2 ^ w) + (2 * (v / 2 % 2 ^ w) + v % 2)
            = 2 * (2 ^ w * (v / 2 / 2 ^ w) + v / 2 % 2 ^ w) + v % 2 := by ring
          _ = 2 * (v / 2) + v % 2 := by rw [e2]
          _ = v := e1
      have h2 : 2 * (v / 2 % 2 ^ w) + v % 2 < 2 ^ (w + 1) := by
        have hb := Nat.mod_lt (v / 2) (show 0 < 2 ^ w from pow_pos (by norm_num) w)
        have hr := Nat.mod_lt v (show 0 < 2 by norm_num)
        rw [pow_succ]
        omega
      conv_lhs => rw [← h1]
      rw [Nat.mul_add_mod, Nat.mod_eq_of_lt h2]
    rw [hsplit]
    rcases Nat.mod_two_eq_zero_or_one v with h | h <;> simp [h]

theorem natToBits_natVal (b : List Bool) : natToBits b.length (natVal b) = b := by
  induction b using List.reverseRecOn with
  | nil => rfl
  | append_singleton l a ih =>
    rw [List.length_append, List.length_singleton, natToBits,
      natVal_append_singleton]
    have hd : (2 * natVal l + (if a then 1 else 0)) / 2 = natVal l := by
      rcases a with _ | _ <;> simp <;> omega
    have hm : ((2 * natVal l + (if a then 1 else 0)) % 2 == 1) = a := by
      rcases a with _ | _ <;> simp [Nat.add_mul_mod_self_left] <;> omega
    rw [hd, hm, ih]

theorem int_sub_emod_right (a b : ℤ) : (a - b) % b = a % b := by
  rw [Int.sub_emod, Int.emod_self, sub_zero, Int.emod_emod_of_dvd a dvd_rfl]

/-- The head of a nonempty bit string is set exactly when its unsigned value
reaches `2 ^ (length - 1)`. -/
theorem head_set_iff (a : Bool) (l : List Bool) :
    a = true ↔ 2 ^ l.length ≤ natVal (a :: l) := by
  rw [natVal_cons]
  have hlt := natVal_lt l
  rcases a with _ | _ <;> simp <;> omega

/-- C1. For every bit string `b` of length `w ≥ 1`, the notebook's
`twos_complement` decodes `b` as two's-complement: if the most-significant
bit (the head of the msb-first string) is 1 the result is the unsigned value
of `b` minus `2 ^ w`, otherwise the unsigned value itself; it is a pure
function of its arguments. Boundary values: the all-zero string decodes to
`0`, the string with only the top bit set to `-2 ^ (w - 1)`, and the
all-ones string to `-1`. -/
theorem decode_twos_complement_spec (b : List Bool) (w : ℕ)
    (hlen : b.length = w) (hw : 1 ≤ w) :
    (twos_complement b w
      = if b.head! then (natVal b : ℤ) - 2 ^ w else (natVal b : ℤ))
    ∧ twos_complement (List.replicate w false) w = 0
    ∧ twos_complement (true :: List.replicate (w - 1) false) w = -(2 ^ (w - 1))
    ∧ twos_complement (List.replicate w true) w = -1 := by
  have hpow : (2 : ℕ) ^ w = 2 * 2 ^ (w - 1) := by
    rcases Nat.exists_eq_add_of_le hw with ⟨k, hk⟩
    subst hk
    rw [Nat.add_sub_cancel_left, pow_add, pow_one]
  refine ⟨?_, ?_, ?_, ?_⟩
  · rcases b with _ | ⟨a, l⟩
    · simp at hlen; omega
    · have hl : l.length = w - 1 := by simp at hlen; omega
      rw [twos_complement]
      have hvlt : natVal (a :: l) < 2 ^ w := by
        have := natVal_lt (a :: l)
        simpa [hlen] using this
      rw [testBit_top _ w hw hvlt]
      have hiff := head_set_iff a l
      rw [hl] at hiff
      rcases a with _ | _
      · have : ¬ 2 ^ (w - 1) ≤ natVal (false :: l) := by
          intro hc
          exact Bool.false_ne_true (hiff.2 hc)
        simp [this]
      · have : 2 ^ (w - 1) ≤ natVal (true :: l) := hiff.1 rfl
        simp [this]
  · rw [twos_complement, natVal_replicate_false]
    simp
  · have hone : 1 ≤ (2 : ℕ) ^ (w - 1) := Nat.one_le_two_pow
    have hv : natVal (true :: List.replicate (w - 1) false) = 2 ^ (w - 1) := by
      rw [natVal_cons, natVal_replicate_false, List.length_replicate]
      simp
    rw [twos_complement, hv]
    have htb : Nat.testBit (2 ^ (w - 1)) (w - 1) = true := by
      rw [testBit_top _ w hw (by omega)]
      simp
    rw [htb]
    simp only [if_pos rfl, if_true]
    have hZ : (2 : ℤ) ^ w = 2 * 2 ^ (w - 1) := by exact_mod_cast hpow
    push_cast
    rw [hZ]
    ring
  · rw [twos_complement, natVal_replicate_true]
    have h1 : 1 ≤ 2 ^ w := Nat.one_le_two_pow
    have hone : 1 ≤ (2 : ℕ) ^ (w - 1) := Nat.one_le_two_pow
    have htb : Nat.testBit (2 ^ w - 1) (w - 1) = true := by
      rw [testBit_top _ w hw (by omega)]
      simp only [decide_eq_true_eq]
      omega
    rw [htb]
    simp only [if_pos rfl, if_true]
    push_cast [h1]
    ring

/-- Witness for C1 at the concrete string `'10'` (w = 2). -/
theorem decode_twos_complement_spec_witness :
    (twos_complement [true, false] 2
      = if [true, false].head! then (natVal [true, false] : ℤ) - 2 ^ 2
        else (natVal [true, false] : ℤ))
    ∧ twos_complement (List.replicate 2 false) 2 = 0
    ∧ twos_complement (true :: List.replicate (2 - 1) false) 2 = -(2 ^ (2 - 1))
    ∧ twos_complement (List.replicate 2 true) 2 = -1 :=
  decode_twos_complement_spec [true, false] 2 rfl (by norm_num)

/-- C9. For every bit string `b` (of length exactly `w = b.length`), the
decoder's result lies in the representable range
`[-2 ^ (w - 1), 2 ^ (w - 1) - 1]` and is congruent modulo `2 ^ w` to the
unsigned value of `b`; in particular the unsigned value 10 on 4 bits
(`'1010'`) silently wraps to `-6` instead of failing. -/
theorem decode_wraps_into_range (b : List Bool) :
    -(2 ^ (b.length - 1) : ℤ) ≤ twos_complement b b.length
    ∧ twos_complement b b.length ≤ (2 ^ (b.length - 1) : ℤ) - 1
    ∧ twos_complement b b.length % 2 ^ b.length = (natVal b : ℤ) % 2 ^ b.length
    ∧ twos_complement [true, false, true, false] 4 = -6 := by
  have hconc : twos_complement [true, false, true, false] 4 = -6 := by decide
  rcases b with _ | ⟨a, l⟩
  · refine ⟨by norm_num [twos_complement, natVal], by norm_num [twos_complement, natVal], by norm_num, hconc⟩
  · set w : ℕ := (a :: l).length with hwdef
    have hw1 : 1 ≤ w := by rw [hwdef]; simp
    have hvlt : natVal (a :: l) < 2 ^ w := by
      have h := natVal_lt (a :: l)
      rw [← hwdef] at h
      exact h
    have hpow : (2 : ℕ) ^ w = 2 * 2 ^ (w - 1) := by
      rcases Nat.exists_eq_add_of_le hw1 with ⟨k, hk⟩
      rw [hk, Nat.add_sub_cancel_left, pow_add, pow_one]
    have hone : 1 ≤ (2 : ℕ) ^ (w - 1) := Nat.one_le_two_pow
    rcases Nat.lt_or_ge (natVal (a :: l)) (2 ^ (w - 1)) with hlow | hhigh
    · have htbf : Nat.testBit (natVal (a :: l)) (w - 1) = false := by
        rw [testBit_top _ w hw1 hvlt]
        exact decide_eq_false (by omega)
      rw [twos_complement, htbf]
      simp only [Bool.false_eq_true, if_false]
      have h2 : ((natVal (a :: l)) : ℤ) < (2 : ℤ) ^ (w - 1) := by exact_mod_cast hlow
      have h3 : (0 : ℤ) < (2 : ℤ) ^ (w - 1) := by positivity
      refine ⟨by omega, by omega, by trivial, hconc⟩
    · have htbt : Nat.testBit (natVal (a :: l)) (w - 1) = true := by
        rw [testBit_top _ w hw1 hvlt]
        exact decide_eq_true hhigh
      rw [twos_complement, htbt]
      simp only [if_pos rfl, if_true]
      have hc1 : (2 : ℤ) ^ (w - 1) ≤ ((natVal (a :: l)) : ℤ) := by exact_mod_cast hhigh
      have hc2 : ((natVal (a :: l)) : ℤ) < (2 : ℤ) ^ w := by exact_mod_cast hvlt
      have hc3 : (2 : ℤ) ^ w = 2 * (2 : ℤ) ^ (w - 1) := by exact_mod_cast hpow
      have hc4 : (1 : ℤ) ≤ (2 : ℤ) ^ (w - 1) := by exact_mod_cast hone
      refine ⟨by omega, by omega, ?_, hconc⟩
      exact int_sub_emod_right _ _

/-- C2. The codec is a bijective round-trip: for every width `w` in `[1, 16]`
and every representable value `v ∈ [-2^(w-1), 2^(w-1) - 1]`,
`decode (encode v w) = v`; and for every bit string `b`,
`encode (decode b) b.length = b`. (The decode-after-encode direction holds
for every `w ≥ 1`, in particular throughout `[1, 16]`.) -/
theorem codec_roundtrip :
    (∀ w : ℕ, 1 ≤ w → w ≤ 16 → ∀ v : ℤ,
      -(2 ^ (w - 1) : ℤ) ≤ v → v ≤ (2 ^ (w - 1) : ℤ) - 1 →
      ∃ b, encode v w = Except.ok b ∧ twos_complement b w = v)
    ∧ (∀ b : List Bool,
      encode (twos_complement b b.length) b.length = Except.ok b) := by
  constructor
  · intro w hw _ v hlo hhi
    have hpowZ : (2 : ℤ) ^ w = 2 * 2 ^ (w - 1) := by
      rcases Nat.exists_eq_add_of_le hw with ⟨k, hk⟩
      rw [hk, Nat.add_sub_cancel_left, pow_add, pow_one]
    have hMpos : (0 : ℤ) < 2 ^ w := by positivity
    have hhalf : (0 : ℤ) < 2 ^ (w - 1) := by positivity
    rw [encode, if_pos ⟨hlo, hhi⟩]
    refine ⟨natToBits w ((v % (2 ^ w)).toNat), rfl, ?_⟩
    have hnonneg : 0 ≤ v % (2 ^ w) := Int.emod_nonneg v (by omega)
    have hlt : v % (2 ^ w) < 2 ^ w := Int.emod_lt_of_pos v hMpos
    set u : ℕ := (v % (2 ^ w)).toNat with hudef
    have hucast : (u : ℤ) = v % (2 ^ w) := Int.toNat_of_nonneg hnonneg
    have hultZ : (u : ℤ) < (2 : ℤ) ^ w := by rw [hucast]; exact hlt
    have hult : u < 2 ^ w := by exact_mod_cast hultZ
    have hval : natVal (natToBits w u) = u := by
      rw [natVal_natToBits]
      exact Nat.mod_eq_of_lt hult
    rw [twos_complement, hval]
    rcases le_or_lt 0 v with hv | hv
    · have hvM : v < 2 ^ w := by omega
      have hmod : v % (2 ^ w) = v := Int.emod_eq_of_lt hv hvM
      have huv : (u : ℤ) = v := by rw [hucast, hmod]
      have hub : (u : ℤ) < (2 : ℤ) ^ (w - 1) := by omega
      have hubN : u < 2 ^ (w - 1) := by exact_mod_cast hub
      have htbf : Nat.testBit u (w - 1) = false := by
        rw [testBit_top _ w hw hult]
        exact decide_eq_false (by omega)
      rw [htbf]
      simp only [Bool.false_eq_true, if_false]
      exact huv
    · have hge : -(2 : ℤ) ^ w ≤ v := by omega
      have hmod : v % (2 ^ w) = v + 2 ^ w := by
        have step := Int.add_mul_emod_self_left (a := v) (b := (2 : ℤ) ^ w) (c := 1)
        rw [mul_one] at step
        rw [← step]
        exact Int.emod_eq_of_lt (by omega) (by omega)
      have huv : (u : ℤ) = v + 2 ^ w := by rw [hucast, hmod]
      have hub : (2 : ℤ) ^ (w - 1) ≤ (u : ℤ) := by omega
      have hubN : 2 ^ (w - 1) ≤ u := by exact_mod_cast hub
      have htbt : Nat.testBit u (w - 1) = true := by
        rw [testBit_top _ w hw hult]
        exact decide_eq_true hubN
      rw [htbt]
      simp only [if_pos rfl, if_true]
      omega
  · intro b
    rcases b with _ | ⟨a, l⟩
    · rfl
    · set w : ℕ := (a :: l).length with hwdef
      have hw1 : 1 ≤ w := by rw [hwdef]; simp
      have hvlt : natVal (a :: l) < 2 ^ w := by
        have h := natVal_lt (a :: l)
        rw [← hwdef] at h
        exact h
      have hvltZ : ((natVal (a :: l)) : ℤ) < (2 : ℤ) ^ w := by exact_mod_cast hvlt
      have hpowZ : (2 : ℤ) ^ w = 2 * 2 ^ (w - 1) := by
        rcases Nat.exists_eq_add_of_le hw1 with ⟨k, hk⟩
        rw [hk, Nat.add_sub_cancel_left, pow_add, pow_one]
      have hhalf : (0 : ℤ) < (2 : ℤ) ^ (w - 1) := by positivity
      have hback : natToBits w (natVal (a :: l)) = a :: l := by
        have h := natToBits_natVal (a :: l)
        rw [← hwdef] at h
        exact h
      rcases Nat.lt_or_ge (natVal (a :: l)) (2 ^ (w - 1)) with hlow | hhigh
      · have htbf : Nat.testBit (natVal (a :: l)) (w - 1) = false := by
          rw [testBit_top _ w hw1 hvlt]
          exact decide_eq_false (by omega)
        rw [twos_complement, htbf]
        simp only [Bool.false_eq_true, if_false]
        have hlowZ : ((natVal (a :: l)) : ℤ) < (2 : ℤ) ^ (w - 1) := by exact_mod_cast hlow
        rw [encode, if_pos ⟨by omega, by omega⟩]
        have hmod : ((natVal (a :: l)) : ℤ) % ((2 : ℤ) ^ w) = ((natVal (a :: l)) : ℤ) :=
          Int.emod_eq_of_lt (by positivity) hvltZ
        rw [hmod, Int.toNat_natCast, hback]
      · have htbt : Nat.testBit (natVal (a :: l)) (w - 1) = true := by
          rw [testBit_top _ w hw1 hvlt]
          exact decide_eq_true hhigh
        rw [twos_complement, htbt]
        simp only [if_pos rfl, if_true]
        have hhighZ : (2 : ℤ) ^ (w - 1) ≤ ((natVal (a :: l)) : ℤ) := by exact_mod_cast hhigh
        rw [encode, if_pos ⟨by omega, by omega⟩]
        have hmod : (((natVal (a :: l)) : ℤ) - 2 ^ w) % ((2 : ℤ) ^ w)
            = ((natVal (a :: l)) : ℤ) := by
          rw [int_sub_emod_right]
          exact Int.emod_eq_of_lt (by positivity) hvltZ
        rw [hmod, Int.toNat_natCast, hback]

/-- Witness for C2 at `w = 4`, `v = -6` and the string `'1010'`. -/
theorem codec_roundtrip_witness :
    (∃ b, encode (-6) 4 = Except.ok b ∧ twos_complement b 4 = -6)
    ∧ encode (twos_complement [true, false, true, false] 4) 4
      = Except.ok [true, false, true, false] :=
  ⟨codec_roundtrip.1 4 (by norm_num) (by norm_num) (-6) (by norm_num) (by norm_num),
   codec_roundtrip.2 [true, false, true, false]⟩

/-- C8. For every integer `v` and width `w`, `encode v w` fails with
`RangeError` exactly when `v` lies outside the representable
two's-complement range `[-2^(w-1), 2^(w-1) - 1]`; the error is the
function's result (it propagates to the caller), and on the in-range side
`encode` returns a bit vector of length `w`. -/
theorem encode_range_error (v : ℤ) (w : ℕ) :
    (encode v w = Except.error CodecError.rangeError
      ↔ (v < -(2 ^ (w - 1) : ℤ) ∨ (2 ^ (w - 1) : ℤ) - 1 < v))
    ∧ (∀ bits, encode v w = Except.ok bits → bits.length = w) := by
  rw [encode]
  by_cases h : -(2 ^ (w - 1) : ℤ) ≤ v ∧ v ≤ (2 ^ (w - 1) : ℤ) - 1
  · rw [if_pos h]
    constructor
    · constructor
      · intro hc
        exact absurd hc (by simp)
      · intro hc
        omega
    · intro bits hb
      have : bits = natToBits w (v.emod (2 ^ w)).toNat := by
        injection hb with h1
        exact h1.symm
      rw [this, natToBits_length]
  · rw [if_neg h]
    constructor
    · constructor
      · intro _
        omega
      · intro _
        rfl
    · intro bits hb
      exact absurd hb (by simp)

/-- Witness for C8: `8` does not fit in 4 bits, while `-6` encodes to the
4-bit string `'1010'`. -/
theorem encode_range_error_witness :
    (8 < -(2 ^ (4 - 1) : ℤ) ∨ (2 ^ (4 - 1) : ℤ) - 1 < 8)
    ∧ (natToBits 4 10).length = 4 :=
  ⟨(encode_range_error 8 4).1.mp (by rfl),
   (encode_range_error (-6) 4).2 (natToBits 4 10) (by rfl)⟩

/-- A quadratic pseudo-Boolean cost model `Q(x) = Σᵢⱼ A[i][j]·xᵢ·xⱼ +
Σᵢ b[i]·xᵢ + c`, the data the notebook extracts from `qp_eq.objective`
(cell-23: `A = ...quadratic.to_array()`, `b = ...linear.to_array()`,
`c = ...constant`). Coefficients are integers: the notebook's objective
values are integer-valued throughout (the artifact encodes them in a
two's-complement value register, and its search text treats the objective
as an integer-valued function of the candidate index). -/
structure QuadraticCostModel where
  A : List (List ℤ)
  b : List ℤ
  c : ℤ

/-- Problem dimension of the model (length of the linear coefficient
vector). -/
def dimension (m : QuadraticCostModel) : ℕ := m.b.length

/-- The `i`-th component of a candidate bit vector, as a rational 0 or 1. -/
def bitv (x : List Bool) (i : ℕ) : ℤ := if x.getD i false then 1 else 0

/-- Entry `A[i][j]` of the quadratic coefficient matrix. -/
def entryA (m : QuadraticCostModel) (i j : ℕ) : ℤ := (m.A.getD i []).getD j 0

/-- Entry `b[i]` of the linear coefficient vector. -/
def entryB (m : QuadraticCostModel) (i : ℕ) : ℤ := m.b.getD i 0

/-- Executable evaluation of the quadratic form `xᵀAx + bᵀx + c` over the
model's dimension, by summation over index lists. -/
def Qform (m : QuadraticCostModel) (x : List Bool) : ℤ :=
  (((List.range (dimension m)).map (fun i =>
      (((List.range (dimension m)).map (fun j =>
        entryA m i j * bitv x i * bitv x j)).sum))).sum)
  + ((List.range (dimension m)).map (fun i => entryB m i * bitv x i)).sum
  + m.c

/-- Error raised on a candidate vector whose length mismatches the model's
dimension. -/
inductive EvalError where
  | dimensionMismatch
  deriving DecidableEq, Repr

/-- Modelled from the spec: `evaluate(x)` computes
`Q(x) = Σᵢⱼ A[i][j]·xᵢ·xⱼ + Σᵢ b[i]·xᵢ + c`, failing with
`DimensionMismatchError` only on a vector whose length mismatches the
model's dimension. (The notebook calls the library routine
`qp_eq.objective.evaluate(x)`, whose implementation is not part of this
repository.) -/
def evaluate (m : QuadraticCostModel) (x : List Bool) : Except EvalError ℤ :=
  if x.length = dimension m then Except.ok (Qform m x)
  else Except.error EvalError.dimensionMismatch

/-- The specification's formula for the objective, written with
mathematical double sums: `Σᵢⱼ A[i][j]·xᵢ·xⱼ + Σᵢ b[i]·xᵢ + c`. -/
def QformSpec (m : QuadraticCostModel) (x : List Bool) : ℤ :=
  (∑ i ∈ Finset.range (dimension m), ∑ j ∈ Finset.range (dimension m),
    entryA m i j * bitv x i * bitv x j)
  + (∑ i ∈ Finset.range (dimension m), entryB m i * bitv x i)
  + m.c

theorem list_sum_range_eq (f : ℕ → ℤ) (n : ℕ) :
    ((List.range n).map f).sum = ∑ i ∈ Finset.range n, f i := by
  induction n with
  | zero => simp
  | succ n ih => rw [List.range_succ, Finset.sum_range_succ, List.map_append]; simp [ih]

theorem Qform_eq_spec (m : QuadraticCostModel) (x : List Bool) :
    Qform m x = QformSpec m x := by
  rw [Qform, QformSpec]
  simp only [list_sum_range_eq]

/-- C3. For every model and every bit vector `x` whose length matches the
model's dimension, `evaluate` returns exactly
`Q(x) = Σᵢⱼ A[i][j]·xᵢ·xⱼ + Σᵢ b[i]·xᵢ + c` (a pure, deterministic
function); on a vector of any other length it fails with
`DimensionMismatchError`, and these are the only two outcomes. -/
theorem evaluate_spec (m : QuadraticCostModel) (x : List Bool) :
    (x.length = dimension m → evaluate m x = Except.ok (QformSpec m x))
    ∧ (x.length ≠ dimension m →
        evaluate m x = Except.error EvalError.dimensionMismatch) := by
  constructor
  · intro h
    rw [evaluate, if_pos h, Qform_eq_spec]
  · intro h
    rw [evaluate, if_neg h]

/-- Witness for C3 on a concrete 2-dimensional model: evaluation succeeds on
a well-dimensioned vector and fails on a mismatched one. -/
theorem evaluate_spec_witness :
    ([true, false].length = dimension ⟨[[1, 2], [3, 4]], [5, 6], 7⟩
      → evaluate ⟨[[1, 2], [3, 4]], [5, 6], 7⟩ [true, false]
        = Except.ok (QformSpec ⟨[[1, 2], [3, 4]], [5, 6], 7⟩ [true, false]))
    ∧ ([true, false].length ≠ dimension ⟨[[1, 2], [3, 4]], [5, 6], 7⟩
      → evaluate ⟨[[1, 2], [3, 4]], [5, 6], 7⟩ [true, false]
        = Except.error EvalError.dimensionMismatch) :=
  evaluate_spec ⟨[[1, 2], [3, 4]], [5, 6], 7⟩ [true, false]

/-- Modelled from the spec: the classical oracle simulator
`below_threshold(model, threshold)` returns the predicate over bit vectors
that holds exactly when the objective value is strictly below the
threshold. It is the classical analogue of the notebook's phase-flip
oracle `U_f` (cell-29), which marks the states with `Q(x) < 0`. -/
def below_threshold (m : QuadraticCostModel) (threshold : ℤ) :
    List Bool → Bool :=
  fun x =>
    match evaluate m x with
    | Except.ok q => decide (q < threshold)
    | Except.error _ => false

/-- C4. For every cost model, threshold and well-dimensioned bit vector
`x`, the predicate produced by `below_threshold` holds on `x` exactly when
`evaluate` yields a value strictly below the threshold: the classical
oracle marks precisely the candidates with `Q(x) < threshold`. -/
theorem below_threshold_spec (m : QuadraticCostModel) (t : ℤ) (x : List Bool)
    (h : x.length = dimension m) :
    below_threshold m t x = true ↔ QformSpec m x < t := by
  rw [below_threshold, (evaluate_spec m x).1 h]
  simp

/-- Witness for C4 on the concrete 2-dimensional model above: the vector
`[1,0]` scores `1 + 5 + 7 = 13`, which is below threshold 14 and not below
threshold 13. -/
theorem below_threshold_spec_witness :
    ([true, false].length = dimension ⟨[[1, 2], [3, 4]], [5, 6], 7⟩)
    ∧ (below_threshold ⟨[[1, 2], [3, 4]], [5, 6], 7⟩ 14 [true, false] = true
        ↔ QformSpec ⟨[[1, 2], [3, 4]], [5, 6], 7⟩ [true, false] < 14) :=
  ⟨rfl, below_threshold_spec ⟨[[1, 2], [3, 4]], [5, 6], 7⟩ 14 [true, false] rfl⟩

/-- Phases of the adaptive search controller's state machine
(spec section 4.4): `INIT`, `SEARCHING`, `IMPROVED`, `CONVERGED`,
`EXHAUSTED`. -/
inductive Phase where
  | init
  | searching
  | improved
  | converged
  | exhausted
  deriving DecidableEq, Repr

/-- Configuration of the controller: the patience limit (rounds without
improvement before declaring convergence) and the hard round budget. -/
structure SearchConfig where
  patience : ℕ
  maxRounds : ℕ

/-- Mutable record held by the controller: current best candidate and its
objective value (the threshold), round counter, consecutive-non-improvement
counter, the log of accepted thresholds (starting with the initial one),
and the current phase. -/
structure SearchState where
  best : List Bool
  bestVal : ℤ
  rounds : ℕ
  noImprove : ℕ
  thresholds : List ℤ
  phase : Phase

/-- A state is terminal when the controller has converged or exhausted its
budget. -/
def isTerminal (s : SearchState) : Bool :=
  s.phase == Phase.converged || s.phase == Phase.exhausted

/-- Modelled from the spec: `INIT` sets the threshold to the objective
value of the starting candidate and zeroes the counters. -/
def initState (m : QuadraticCostModel) (x0 : List Bool) : SearchState :=
  { best := x0, bestVal := Qform m x0, rounds := 0, noImprove := 0,
    thresholds := [Qform m x0], phase := Phase.init }

/-- Modelled from the spec: one round of the adaptive search controller
(minimization). The backend's amplified sampling is abstracted as a
function from the round index to the sampled candidate. If the hard budget
is exceeded the controller moves to `EXHAUSTED` (a normal result, not an
exception); if the sampled candidate's value is strictly below the current
threshold it moves to `IMPROVED`, updating best, threshold and the
threshold log and resetting the growth schedule; otherwise the
non-improvement counter grows and the controller either converges
(patience reached) or keeps searching. -/
def stepGAS (cfg : SearchConfig) (m : QuadraticCostModel)
    (sampler : ℕ → List Bool) (s : SearchState) : SearchState :=
  if cfg.maxRounds ≤ s.rounds then { s with phase := Phase.exhausted }
  else if Qform m (sampler s.rounds) < s.bestVal then
    { best := sampler s.rounds, bestVal := Qform m (sampler s.rounds),
      rounds := s.rounds + 1, noImprove := 0,
      thresholds := s.thresholds ++ [Qform m (sampler s.rounds)],
      phase := Phase.improved }
  else if cfg.patience ≤ s.noImprove + 1 then
    { s with rounds := s.rounds + 1, noImprove := s.noImprove + 1, phase := Phase.converged }
  else
    { s with rounds := s.rounds + 1, noImprove := s.noImprove + 1, phase := Phase.searching }

/-- Fuel-indexed iteration of the controller; the fuel is an upper bound on
the number of rounds, which the budget check renders sufficient. -/
def loopGAS (cfg : SearchConfig) (m : QuadraticCostModel)
    (sampler : ℕ → List Bool) : ℕ → SearchState → SearchState
  | 0, s => s
  | fuel + 1, s =>
    if isTerminal s then s else loopGAS cfg m sampler fuel (stepGAS cfg m sampler s)

/-- A full run of the adaptive search controller from a starting
candidate. -/
def runGAS (cfg : SearchConfig) (m : QuadraticCostModel)
    (sampler : ℕ → List Bool) (x0 : List Bool) : SearchState :=
  loopGAS cfg m sampler (cfg.maxRounds + 2) (initState m x0)

/-- The threshold log is strictly decreasing and ends at the current
threshold. -/
def threshInv (s : SearchState) : Prop :=
  s.thresholds.Chain' (· > ·) ∧ s.thresholds.getLast? = some s.bestVal

theorem stepGAS_threshInv (cfg : SearchConfig) (m : QuadraticCostModel)
    (sampler : ℕ → List Bool) (s : SearchState) (h : threshInv s) :
    threshInv (stepGAS cfg m sampler s) := by
  obtain ⟨h1, h2⟩ := h
  by_cases hb : cfg.maxRounds ≤ s.rounds
  · rw [stepGAS, if_pos hb]
    exact ⟨h1, h2⟩
  · by_cases himp : Qform m (sampler s.rounds) < s.bestVal
    · rw [stepGAS, if_neg hb, if_pos himp]
      constructor
      · show List.Chain' (· > ·) (s.thresholds ++ [Qform m (sampler s.rounds)])
        rw [List.chain'_append]
        refine ⟨h1, List.chain'_singleton _, ?_⟩
        intro x hx y hy
        rw [h2] at hx
        simp only [Option.mem_def, Option.some.injEq] at hx
        simp only [List.head?_cons, Option.mem_def, Option.some.injEq] at hy
        subst hx
        subst hy
        exact himp
      · show (s.thresholds ++ [Qform m (sampler s.rounds)]).getLast?
          = some (Qform m (sampler s.rounds))
        exact List.getLast?_concat _
    · by_cases hpat : cfg.patience ≤ s.noImprove + 1
      · rw [stepGAS, if_neg hb, if_neg himp, if_pos hpat]
        exact ⟨h1, h2⟩
      · rw [stepGAS, if_neg hb, if_neg himp, if_neg hpat]
        exact ⟨h1, h2⟩

theorem loopGAS_threshInv (cfg : SearchConfig) (m : QuadraticCostModel)
    (sampler : ℕ → List Bool) :
    ∀ (fuel : ℕ) (s : SearchState), threshInv s →
      threshInv (loopGAS cfg m sampler fuel s) := by
  intro fuel
  induction fuel with
  | zero => intro s h; exact h
  | succ fuel ih =>
    intro s h
    rw [loopGAS]
    split_ifs with ht
    · exact h
    · exact ih _ (stepGAS_threshInv cfg m sampler s h)

theorem initState_threshInv (m : QuadraticCostModel) (x0 : List Bool) :
    threshInv (initState m x0) := by
  constructor
  · exact List.chain'_singleton _
  · rfl

/-- C5. Across any run of the adaptive search controller (minimization) the
sequence of accepted thresholds is strictly decreasing, and a
`SEARCHING -> IMPROVED` transition happens in a round exactly when the
budget is not yet exceeded and the sampled candidate's objective value is
strictly less than the current threshold. -/
theorem thresholds_strictly_improving (cfg : SearchConfig)
    (m : QuadraticCostModel) (sampler : ℕ → List Bool) (x0 : List Bool) :
    ((runGAS cfg m sampler x0).thresholds).Chain' (· > ·)
    ∧ (∀ s : SearchState,
        (stepGAS cfg m sampler s).phase = Phase.improved
          ↔ s.rounds < cfg.maxRounds ∧ Qform m (sampler s.rounds) < s.bestVal) := by
  constructor
  · exact (loopGAS_threshInv cfg m sampler _ _ (initState_threshInv m x0)).1
  · intro s
    by_cases hb : cfg.maxRounds ≤ s.rounds
    · rw [stepGAS, if_pos hb]
      constructor
      · intro h
        simp at h
      · rintro ⟨h, _⟩
        exact absurd h (by omega)
    · by_cases himp : Qform m (sampler s.rounds) < s.bestVal
      · rw [stepGAS, if_neg hb, if_pos himp]
        exact ⟨fun _ => ⟨by omega, himp⟩, fun _ => rfl⟩
      · by_cases hpat : cfg.patience ≤ s.noImprove + 1
        · rw [stepGAS, if_neg hb, if_neg himp, if_pos hpat]
          constructor
          · intro h
            simp at h
          · rintro ⟨_, h2⟩
            exact absurd h2 himp
        · rw [stepGAS, if_neg hb, if_neg himp, if_neg hpat]
          constructor
          · intro h
            simp at h
          · rintro ⟨_, h2⟩
            exact absurd h2 himp

theorem stepGAS_rounds_of_budget (cfg : SearchConfig) (m : QuadraticCostModel)
    (sampler : ℕ → List Bool) (s : SearchState) (hb : cfg.maxRounds ≤ s.rounds) :
    (stepGAS cfg m sampler s).rounds = s.rounds := by
  rw [stepGAS, if_pos hb]

theorem stepGAS_rounds_of_lt (cfg : SearchConfig) (m : QuadraticCostModel)
    (sampler : ℕ → List Bool) (s : SearchState) (hb : ¬ cfg.maxRounds ≤ s.rounds) :
    (stepGAS cfg m sampler s).rounds = s.rounds + 1 := by
  rw [stepGAS, if_neg hb]
  by_cases himp : Qform m (sampler s.rounds) < s.bestVal
  · rw [if_pos himp]
  · rw [if_neg himp]
    by_cases hpat : cfg.patience ≤ s.noImprove + 1
    · rw [if_pos hpat]
    · rw [if_neg hpat]

theorem loopGAS_terminal (cfg : SearchConfig) (m : QuadraticCostModel)
    (sampler : ℕ → List Bool) (fuel : ℕ) (s : SearchState)
    (h : isTerminal s = true) : loopGAS cfg m sampler fuel s = s := by
  cases fuel with
  | zero => rfl
  | succ fuel => rw [loopGAS, if_pos h]

theorem loopGAS_rounds_le (cfg : SearchConfig) (m : QuadraticCostModel)
    (sampler : ℕ → List Bool) :
    ∀ (fuel : ℕ) (s : SearchState), s.rounds ≤ cfg.maxRounds →
      (loopGAS cfg m sampler fuel s).rounds ≤ cfg.maxRounds := by
  intro fuel
  induction fuel with
  | zero => intro s h; exact h
  | succ fuel ih =>
    intro s h
    rw [loopGAS]
    split_ifs with ht
    · exact h
    · refine ih _ ?_
      by_cases hb : cfg.maxRounds ≤ s.rounds
      · rw [stepGAS_rounds_of_budget cfg m sampler s hb]
        exact h
      · rw [stepGAS_rounds_of_lt cfg m sampler s hb]
        omega

theorem loopGAS_reaches_terminal (cfg : SearchConfig) (m : QuadraticCostModel)
    (sampler : ℕ → List Bool) :
    ∀ (fuel : ℕ) (s : SearchState), s.rounds ≤ cfg.maxRounds →
      cfg.maxRounds + 2 ≤ s.rounds + fuel →
      isTerminal (loopGAS cfg m sampler fuel s) = true := by
  intro fuel
  induction fuel with
  | zero =>
    intro s h1 h2
    omega
  | succ fuel ih =>
    intro s h1 h2
    rw [loopGAS]
    split_ifs with ht
    · exact ht
    · rcases Nat.lt_or_ge s.rounds cfg.maxRounds with hlt | hge
      · have hnb : ¬ cfg.maxRounds ≤ s.rounds := by omega
        have hr := stepGAS_rounds_of_lt cfg m sampler s hnb
        refine ih _ (by omega) (by omega)
      · have hstep : stepGAS cfg m sampler s = { s with phase := Phase.exhausted } := by
          rw [stepGAS, if_pos hge]
        rw [hstep, loopGAS_terminal]
        · rfl
        · rfl

theorem isTerminal_phase (s : SearchState) (h : isTerminal s = true) :
    s.phase = Phase.converged ∨ s.phase = Phase.exhausted := by
  rw [isTerminal] at h
  rcases hp : s.phase with _ | _ | _ | _ | _ <;> rw [hp] at h <;> simp_all

/-- C6. For every configuration, model, sampler and starting candidate the
controller reaches a terminal state — `CONVERGED` or `EXHAUSTED` — and the
number of rounds used never exceeds the configured `maxRounds` budget.
Moreover a round ends in `EXHAUSTED` exactly when the budget is already
used up at its start (a normal result value, not an exception: `runGAS` is
a total function). -/
theorem controller_terminates (cfg : SearchConfig) (m : QuadraticCostModel)
    (sampler : ℕ → List Bool) (x0 : List Bool) :
    ((runGAS cfg m sampler x0).phase = Phase.converged
      ∨ (runGAS cfg m sampler x0).phase = Phase.exhausted)
    ∧ (runGAS cfg m sampler x0).rounds ≤ cfg.maxRounds
    ∧ (∀ s : SearchState,
        (stepGAS cfg m sampler s).phase = Phase.exhausted
          ↔ cfg.maxRounds ≤ s.rounds) := by
  refine ⟨?_, ?_, ?_⟩
  · refine isTerminal_phase _ ?_
    rw [runGAS]
    refine loopGAS_reaches_terminal cfg m sampler _ _ ?_ ?_
    · show (0 : ℕ) ≤ cfg.maxRounds
      omega
    · show cfg.maxRounds + 2 ≤ 0 + (cfg.maxRounds + 2)
      omega
  · rw [runGAS]
    refine loopGAS_rounds_le cfg m sampler _ _ ?_
    show (0 : ℕ) ≤ cfg.maxRounds
    omega
  · intro s
    by_cases hb : cfg.maxRounds ≤ s.rounds
    · rw [stepGAS, if_pos hb]
      exact ⟨fun _ => hb, fun _ => rfl⟩
    · constructor
      · intro h
        by_cases himp : Qform m (sampler s.rounds) < s.bestVal
        · rw [stepGAS, if_neg hb, if_pos himp] at h
          simp at h
        · by_cases hpat : cfg.patience ≤ s.noImprove + 1
          · rw [stepGAS, if_neg hb, if_neg himp, if_pos hpat] at h
            simp at h
          · rw [stepGAS, if_neg hb, if_neg himp, if_neg hpat] at h
            simp at h
      · intro h
        exact absurd h hb

/-- The notebook's 5-node MaxCut edge list (cell-3), all weights 1. -/
def maxcutEdges : List (ℕ × ℕ) :=
  [(0, 1), (0, 2), (0, 3), (1, 2), (2, 3), (2, 4), (3, 4)]

/-- The MaxCut objective of cell-3:
`Σ_(i,j) w·(xᵢ + xⱼ − 2·xᵢ·xⱼ)` over the edges, all weights 1. -/
def cutValue (x : List Bool) : ℤ :=
  (maxcutEdges.map (fun e =>
    bitv x e.1 + bitv x e.2 - 2 * bitv x e.1 * bitv x e.2)).sum

/-- Modelled from the spec: the brute-force penalized MaxCut objective —
the cut value minus the penalty `1·(Σᵢ xᵢ − 2)²` for the cardinality
constraint `Σᵢ xᵢ = 2` (cell-3 folds the constraint in with
`LinearEqualityToPenalty(penalty=1)`, maximization sense). -/
def penalizedMaxCut (x : List Bool) : ℤ :=
  cutValue x - (((List.range 5).map (fun i => bitv x i)).sum - 2) ^ 2

/-- Modelled from the spec: the `A`, `b`, `c` data of `qp_eq.objective`
for the notebook's penalized MaxCut (cell-3/cell-23), written as a full
symmetric quadratic matrix: `A[i][j] = −1·[edge i~j] − 1` off the
diagonal (edge term `−2·xᵢxⱼ` split over `(i,j)` and `(j,i)`, penalty
cross term `−xᵢxⱼ` from `−(Σx)²`), diagonal `−1` (penalty square term),
`b[i] = deg(i) + 4`, `c = −4`. -/
def maxcutModel : QuadraticCostModel :=
  { A := [[-1, -2, -2, -2, -1],
          [-2, -1, -2, -1, -1],
          [-2, -2, -1, -2, -2],
          [-2, -1, -2, -1, -2],
          [-1, -1, -2, -2, -1]],
    b := [7, 6, 8, 7, 6],
    c := -4 }

/-- The negation of `maxcutModel`: the minimization form of the (maximized)
penalized MaxCut objective, which is what the minimizing controller runs
on. -/
def negMaxcutModel : QuadraticCostModel :=
  { A := [[1, 2, 2, 2, 1],
          [2, 1, 2, 1, 1],
          [2, 2, 1, 2, 2],
          [2, 1, 2, 1, 2],
          [1, 1, 2, 2, 1]],
    b := [-7, -6, -8, -7, -6],
    c := 4 }

theorem fin32_qform_eq :
    ∀ t : Fin 32, Qform maxcutModel (natToBits 5 t.val)
      = penalizedMaxCut (natToBits 5 t.val) := by decide

theorem fin32_neg_qform_eq :
    ∀ t : Fin 32, Qform negMaxcutModel (natToBits 5 t.val)
      = -penalizedMaxCut (natToBits 5 t.val) := by decide

theorem fin32_le_five :
    ∀ t : Fin 32, penalizedMaxCut (natToBits 5 t.val) ≤ 5 := by decide

theorem len5_as_natToBits (x : List Bool) (h : x.length = 5) :
    natToBits 5 (natVal x) = x ∧ natVal x < 32 := by
  constructor
  · rw [← h]
    exact natToBits_natVal x
  · have hlt := natVal_lt x
    rw [h] at hlt
    norm_num at hlt
    exact hlt

/-- C7. On the notebook's 5-node penalized MaxCut instance (edges
(0,1),(0,2),(0,3),(1,2),(2,3),(2,4),(3,4), weight 1, cardinality
constraint `Σx = 2` folded in with penalty 1): the `A, b, c` model
evaluates to the brute-force penalized objective on every length-5
vector — in particular `evaluate [1,1,0,0,0]` returns the brute-force
value 3 of that partition; exhaustive enumeration gives optimal value 5,
attained e.g. at `[1,0,1,0,0]`; and the adaptive controller, run on the
minimization form of the objective with a sampler that sweeps the whole
search space, agrees: its final threshold is −5 and its final best vector
attains the penalized MaxCut value 5. -/
theorem maxcut_agreement :
    (∀ x : List Bool, x.length = 5 → Qform maxcutModel x = penalizedMaxCut x)
    ∧ evaluate maxcutModel [true, true, false, false, false]
      = Except.ok (penalizedMaxCut [true, true, false, false, false])
    ∧ penalizedMaxCut [true, true, false, false, false] = 3
    ∧ (∀ x : List Bool, x.length = 5 → penalizedMaxCut x ≤ 5)
    ∧ penalizedMaxCut [true, false, true, false, false] = 5
    ∧ (∀ x : List Bool, x.length = 5 → Qform negMaxcutModel x = -penalizedMaxCut x)
    ∧ (runGAS ⟨8, 64⟩ negMaxcutModel (fun i => natToBits 5 (i % 32))
        (List.replicate 5 false)).bestVal = -5
    ∧ penalizedMaxCut (runGAS ⟨8, 64⟩ negMaxcutModel (fun i => natToBits 5 (i % 32))
        (List.replicate 5 false)).best = 5 := by
  refine ⟨?_, rfl, rfl, ?_, rfl, ?_, by decide, by decide⟩
  · intro x hx
    obtain ⟨heq, hlt⟩ := len5_as_natToBits x hx
    have h := fin32_qform_eq ⟨natVal x, hlt⟩
    rw [heq] at h
    exact h
  · intro x hx
    obtain ⟨heq, hlt⟩ := len5_as_natToBits x hx
    have h := fin32_le_five ⟨natVal x, hlt⟩
    rw [heq] at h
    exact h
  · intro x hx
    obtain ⟨heq, hlt⟩ := len5_as_natToBits x hx
    have h := fin32_neg_qform_eq ⟨natVal x, hlt⟩
    rw [heq] at h
    exact h

/-- Witness for C7 at the concrete all-ones vector (penalized value −9). -/
theorem maxcut_agreement_witness :
    Qform maxcutModel [true, true, true, true, true]
      = penalizedMaxCut [true, true, true, true, true]
    ∧ penalizedMaxCut [true, true, true, true, true] ≤ 5
    ∧ Qform negMaxcutModel [true, true, true, true, true]
      = -penalizedMaxCut [true, true, true, true, true] :=
  ⟨maxcut_agreement.1 [true, true, true, true, true] rfl,
   maxcut_agreement.2.2.2.1 [true, true, true, true, true] rfl,
   maxcut_agreement.2.2.2.2.2.1 [true, true, true, true, true] rfl⟩

/-- A computational basis state of the oracle circuit with its amplitude
sign: the data register (bit vector x), the value register (unsigned
contents below `2 ^ w`) and the phase (±1). -/
structure OracleState where
  data : List Bool
  value : ℕ
  phase : ℤ
  deriving DecidableEq, Repr

/-- Modelled from the spec: the library quadratic-form circuit `qf` of
cell-23 acts on computational basis states by adding `f(x)` into the value
register modulo `2 ^ w` (two's-complement arithmetic, per cell-21: the
circuit evaluates the quadratic form using the two's-complement
representation). -/
def qfGate (f : List Bool → ℤ) (w : ℕ) (s : OracleState) : OracleState :=
  { s with value := (((s.value : ℤ) + f s.data) % (2 ^ w : ℤ)).toNat }

/-- The inverse quadratic-form circuit (`qf.inverse()` of cell-29):
subtracts `f(x)` from the value register modulo `2 ^ w`. -/
def qfInvGate (f : List Bool → ℤ) (w : ℕ) (s : OracleState) : OracleState :=
  { s with value := (((s.value : ℤ) - f s.data) % (2 ^ w : ℤ)).toNat }

/-- The Z gate on the top (sign) value qubit (`qc.z(qc.qubits[-1])` of
cell-29): flips the amplitude sign exactly when bit `w - 1` of the value
register is set. -/
def zTop (w : ℕ) (s : OracleState) : OracleState :=
  { s with phase := if Nat.testBit s.value (w - 1) then -s.phase else s.phase }

/-- The notebook's Grover oracle `U_f` (cell-29): compute `Q(x)`, phase-flip
on the sign qubit, uncompute `Q(x)`. -/
def U_f (f : List Bool → ℤ) (w : ℕ) (s : OracleState) : OracleState :=
  qfInvGate f w (zTop w (qfGate f w s))

theorem int_emod_sub_cancel (a b n : ℤ) : ((a % n) - b) % n = (a - b) % n := by
  rw [Int.sub_emod, Int.emod_emod_of_dvd _ dvd_rfl, ← Int.sub_emod]

theorem fin32_oracle :
    ∀ t : Fin 32, U_f (Qform maxcutModel) 5 ⟨natToBits 5 t.val, 0, 1⟩
      = ⟨natToBits 5 t.val, 0,
          if Qform maxcutModel (natToBits 5 t.val) < 0 then -1 else 1⟩ := by
  decide

/-- C10. The oracle `U_f` leaves the registers unchanged: for every
computed function `f`, width `w` and basis state whose value register
is in range, applying the quadratic-form circuit, the sign-qubit phase
flip and the inverse circuit restores the data bits and the value-register
contents. On the notebook's instance (the penalized MaxCut form on 5 value
qubits), starting from `|x>|0>` the net effect is exactly a sign flip of
the amplitude when `Q(x) < 0` and the identity otherwise. -/
theorem oracle_frame_and_mark (f : List Bool → ℤ) (w : ℕ) (s : OracleState)
    (hv : s.value < 2 ^ w) :
    ((U_f f w s).data = s.data ∧ (U_f f w s).value = s.value)
    ∧ (∀ x : List Bool, x.length = 5 →
        U_f (Qform maxcutModel) 5 ⟨x, 0, 1⟩
          = ⟨x, 0, if Qform maxcutModel x < 0 then -1 else 1⟩) := by
  constructor
  · have hM : (0 : ℤ) < 2 ^ w := by positivity
    constructor
    · rfl
    · show ((((((s.value : ℤ) + f s.data) % (2 ^ w : ℤ)).toNat : ℤ)
          - f s.data) % (2 ^ w : ℤ)).toNat = s.value
      have h1 : ((((s.value : ℤ) + f s.data) % (2 ^ w : ℤ)).toNat : ℤ)
          = ((s.value : ℤ) + f s.data) % (2 ^ w : ℤ) :=
        Int.toNat_of_nonneg (Int.emod_nonneg _ (by omega))
      rw [h1, int_emod_sub_cancel, add_sub_cancel_right]
      have h2 : ((s.value : ℤ)) % (2 ^ w : ℤ) = (s.value : ℤ) :=
        Int.emod_eq_of_lt (by positivity) (by exact_mod_cast hv)
      rw [h2, Int.toNat_natCast]
  · intro x hx
    obtain ⟨heq, hlt⟩ := len5_as_natToBits x hx
    have h := fin32_oracle ⟨natVal x, hlt⟩
    rw [heq] at h
    exact h

/-- Witness for C10: a generic frame instance (f constantly 3, width 4,
value register 5) and the notebook instance at the all-ones vector, whose
objective value −9 is negative, so the phase flips. -/
theorem oracle_frame_and_mark_witness :
    ((U_f (fun _ => 3) 4 ⟨[true], 5, 1⟩).data = [true]
      ∧ (U_f (fun _ => 3) 4 ⟨[true], 5, 1⟩).value = 5)
    ∧ U_f (Qform maxcutModel) 5 ⟨[true, true, true, true, true], 0, 1⟩
        = ⟨[true, true, true, true, true], 0,
            if Qform maxcutModel [true, true, true, true, true] < 0 then -1 else 1⟩ :=
  ⟨(oracle_frame_and_mark (fun _ => 3) 4 ⟨[true], 5, 1⟩ (by norm_num)).1,
   (oracle_frame_and_mark (fun _ => 3) 4 ⟨[true], 5, 1⟩ (by norm_num)).2
     [true, true, true, true, true] rfl⟩
